import Mathlib

/-!
Verification of the cryptopals-rs toolkit against its specification.

Bytes are modelled as `Nat` (values produced by the code always stay below
256 where it matters, and arithmetic that can wrap is taken modulo 256
explicitly). Rust `Vec<u8>` and slices become `List Nat`; fallible or
panicking code returns `Option` / `Except`. Each definition is a direct
translation of the corresponding Rust function in `src/`.
-/

namespace Cryptopals

set_option maxRecDepth 100000

/-- Cyclic extension of the byte buffer `b` to length `n`, translating the
Rust iterator `b.into_iter().cycle()` as consumed by `zip` with an
`n`-element iterator: the standard-library `cycle` of an empty iterator
yields nothing, so the result is empty when `b` is empty. -/
def cycleTo (b : List Nat) (n : Nat) : List Nat :=
  if b.isEmpty then [] else (List.range n).map (fun i => b.getD (i % b.length) 0)

/-- Element-wise XOR of the payload of `misc::xor` (the zip/cycle/map body),
defined for any pair of buffers. -/
def xorRaw (a b : List Nat) : List Nat :=
  ((a.zip (cycleTo b a.length)).map (fun p => p.1 ^^^ p.2))

/-- Translation of `misc::xor` in `src/crypto/misc.rs`. The Rust function
asserts `a.len() >= b.len()` and panics otherwise; the panic is modelled as
`none`. -/
def xor (a b : List Nat) : Option (List Nat) :=
  if b.length ≤ a.length then some (xorRaw a b) else none

/-- Translation of `misc::pkcs7` in `src/crypto/misc.rs`. The Rust `size`
parameter is a `u8` cast to `usize`; the padding byte is `n as u8`, modelled
by `n % 256`. When `size = 0` the Rust code panics on `% 0`; Lean `% 0` is
the identity, which keeps the definition total (all claims assume
`1 ≤ size`). -/
def pkcs7 (input : List Nat) (size : Nat) : List Nat :=
  input ++ List.replicate (size - input.length % size) ((size - input.length % size) % 256)

/-- Fuelled translation of the slice iterator `chunks n` used by the Rust
code: successive sub-buffers of `n` bytes, the last one possibly shorter.
Structural recursion on the fuel keeps the definition kernel-reducible. -/
def chunksAux (n : Nat) : Nat → List Nat → List (List Nat)
  | 0, _ => []
  | _, [] => []
  | fuel + 1, l => l.take n :: chunksAux n fuel (l.drop n)

/-- Rust `slice::chunks(n)`: for `n ≥ 1` the fuel `l.length` is always
sufficient. -/
def chunks (n : Nat) (l : List Nat) : List (List Nat) :=
  chunksAux n l.length l

/-- Translation of `aes::is_ecb_encrypted` in `src/crypto/aes.rs`:
`input.chunks(16).zip(input.chunks(16).skip(1)).any(|(a, b)| a == b)`. -/
def is_ecb_encrypted (input : List Nat) : Bool :=
  ((chunks 16 input).zip ((chunks 16 input).drop 1)).any (fun p => p.1 == p.2)

/-- Modelled from the spec words of claim C1 (the refinement side, not the
source): report whether ANY two of the 16-byte blocks are byte-identical,
over all pairs of blocks. -/
def anyTwoBlocksIdentical : List (List Nat) → Bool
  | [] => false
  | x :: xs => xs.contains x || anyTwoBlocksIdentical xs

/-- Iterations of the unbounded Rust loop `for i in 2..` inside
`misc::discover_block_size`: each step queries the oracle with `i` zero
bytes and returns the length jump if the output length changed. The fuel
argument counts loop iterations; the Rust loop has no bound at all, so the
source function terminates only if some fuel makes this return `some`. -/
def discoverLoop (f : List Nat → List Nat) (baseLen : Nat) : Nat → Nat → Option Nat
  | 0, _ => none
  | fuel + 1, i =>
    let len := (f (List.replicate i 0)).length
    if len ≠ baseLen then some (len - baseLen) else discoverLoop f baseLen fuel (i + 1)

/-- Translation of `misc::discover_block_size` in `src/crypto/misc.rs`,
with the loop iteration count made explicit as fuel. `baseLen` is the
length of `f(&[0])`; the loop starts at `i = 2`. The trailing Rust
panic line is unreachable because the `for i in 2..` loop never ends
normally; `none` for every fuel value means the Rust function never
returns. -/
def discover_block_size (f : List Nat → List Nat) (fuel : Nat) : Option Nat :=
  discoverLoop f (f [0]).length fuel 2

/-- Buffer whose first and third 16-byte blocks coincide while no two
adjacent blocks do. -/
def ecbCounterBuf : List Nat :=
  List.replicate 16 0 ++ List.replicate 16 1 ++ List.replicate 16 0

/-- The fixed hidden suffix of `aes::encrypt_seeded`: the base64 string in
`src/crypto/aes.rs` decoded to its 138 bytes. -/
def seededSuffix : List Nat := [
  82, 111, 108, 108, 105, 110, 39, 32, 105, 110, 32, 109, 121, 32, 53, 46, 48, 10,
  87, 105, 116, 104, 32, 109, 121, 32, 114, 97, 103, 45, 116, 111, 112, 32, 100, 111,
  119, 110, 32, 115, 111, 32, 109, 121, 32, 104, 97, 105, 114, 32, 99, 97, 110, 32,
  98, 108, 111, 119, 10, 84, 104, 101, 32, 103, 105, 114, 108, 105, 101, 115, 32, 111,
  110, 32, 115, 116, 97, 110, 100, 98, 121, 32, 119, 97, 118, 105, 110, 103, 32, 106,
  117, 115, 116, 32, 116, 111, 32, 115, 97, 121, 32, 104, 105, 10, 68, 105, 100, 32,
  121, 111, 117, 32, 115, 116, 111, 112, 63, 32, 78, 111, 44, 32, 73, 32, 106, 117,
  115, 116, 32, 100, 114, 111, 118, 101, 32, 98, 121, 10]

/-- Translation of `ecb::encrypt` with `pad = true` in `src/crypto/aes.rs`:
the openssl crypter PKCS#7-pads the input to a 16-byte boundary
(`Cipher::aes_128_ecb`, block size 16) and applies the AES-128 block
permutation to each block. The single-block permutation is the external
library primitive (out of scope per the spec), abstracted as the
parameter `enc`. -/
def ecb_encrypt (enc : List Nat → List Nat) (input : List Nat) : List Nat :=
  ((chunks 16 (pkcs7 input 16)).map enc).flatten

/-- Translation of `aes::encrypt_seeded` in `src/crypto/aes.rs`: appends
the fixed unknown suffix to the input and ECB-encrypts with padding under
the seeded key. The seeded key generation is external (rand `StdRng`); the
key only selects which block permutation `enc` is applied. -/
def encrypt_seeded (enc : List Nat → List Nat) (input : List Nat) : List Nat :=
  ecb_encrypt enc (input ++ seededSuffix)

/-- UTF-8 continuation byte, `0x80..=0xBF`. -/
def isCont (b : Nat) : Bool := 128 ≤ b && b ≤ 191

/-- Whether a byte sequence is valid UTF-8, the exact predicate decided by
Rust `String::from_utf8` (rejecting overlong encodings, surrogates and
code points above `0x10FFFF`). -/
def validUtf8 : List Nat → Bool
  | [] => true
  | b :: rest =>
    if b ≤ 127 then validUtf8 rest
    else if 194 ≤ b && b ≤ 223 then
      match rest with
      | c1 :: r => isCont c1 && validUtf8 r
      | [] => false
    else if b == 224 then
      match rest with
      | c1 :: c2 :: r => (160 ≤ c1 && c1 ≤ 191) && isCont c2 && validUtf8 r
      | _ => false
    else if (225 ≤ b && b ≤ 236) || b == 238 || b == 239 then
      match rest with
      | c1 :: c2 :: r => isCont c1 && isCont c2 && validUtf8 r
      | _ => false
    else if b == 237 then
      match rest with
      | c1 :: c2 :: r => (128 ≤ c1 && c1 ≤ 159) && isCont c2 && validUtf8 r
      | _ => false
    else if b == 240 then
      match rest with
      | c1 :: c2 :: c3 :: r => (144 ≤ c1 && c1 ≤ 191) && isCont c2 && isCont c3 && validUtf8 r
      | _ => false
    else if 241 ≤ b && b ≤ 243 then
      match rest with
      | c1 :: c2 :: c3 :: r => isCont c1 && isCont c2 && isCont c3 && validUtf8 r
      | _ => false
    else if b == 244 then
      match rest with
      | c1 :: c2 :: c3 :: r => (128 ≤ c1 && c1 ≤ 143) && isCont c2 && isCont c3 && validUtf8 r
      | _ => false
    else false

/-- Translation of `set1::xor_cipher` in `src/sets/set1.rs`. The Rust
function scores candidates with the `f32`-valued `englishness`; the score
function is abstracted as a parameter over `ℚ` (only its strict order is
used, and the claim under verification is independent of scores). The
initial state is `(best_key, plaintext, best_score) = (0, "", 0.0)`; a
candidate key is considered only when the decoded bytes are valid UTF-8
(Rust `String::from_utf8`), and replaces the current best only on a
strictly greater score. The call `misc::xor(input, &[key])` asserts
`input.len() ≥ 1`; that panic is modelled by `none` for empty input. The
Rust function itself always returns `Ok`, modelled by `some` of the
fold result. -/
def xor_cipher (score : List Nat → Rat) (input : List Nat) : Option (Nat × List Nat × Rat) :=
  if 1 ≤ input.length then
    some ((List.range 256).foldl (fun best key =>
      let decoded := xorRaw input [key]
      if validUtf8 decoded then
        let sc := score decoded
        if best.2.2 < sc then (key, decoded, sc) else best
      else best) (0, [], 0))
  else none

/-- The `test_vec` built in `set2::byte_at_a_time_ecb_decryption` for block
`blk` and in-block index `i` (with `n = bs - i`): for the first block,
`n - 1` filler zeros followed by `deciphered[..=i]`; for later blocks, the
window `deciphered[(blk-1)*bs + i + 1 .. blk*bs + i + 1]`. -/
def testVec (dec : List Nat) (bs blk i : Nat) : List Nat :=
  if blk == 0 then
    List.replicate (bs - i - 1) 0 ++ dec.take (i + 1)
  else
    (dec.drop ((blk - 1) * bs + i + 1)).take bs

/-- The candidate search of the inner `for (byte, choice) in
choices.enumerate()` loop: for each byte value `b` in `0..=255`, overwrite
the last byte of `test_vec` with `b` (`test_vec[bs - 1] = b`), query the
oracle, and keep the first `b` whose leading `bs` ciphertext bytes equal
the hint window `hint[blk*bs .. blk*bs + bs]` (Rust slicing panics if the
buffers are shorter; the model takes what is available). `none` means no
candidate matched. -/
def findCandidate (oracle : List Nat → List Nat) (dec : List Nat) (bs blk i : Nat) :
    Option Nat :=
  let tv := testVec dec bs blk i
  let hint := oracle (List.replicate (bs - i - 1) 0)
  (List.range 256).find? (fun b =>
    (oracle (tv.set (bs - 1) b)).take bs == (hint.drop (blk * bs)).take bs)

/-- One position of the attack: on a match, write the byte at
`deciphered[blk*bs + i]`; when no candidate matches, the Rust loop simply
falls through — the buffer is left unchanged (keeping the default byte 0)
and no error is raised. -/
def stepPos (oracle : List Nat → List Nat) (dec : List Nat) (bs blk i : Nat) :
    List Nat :=
  match findCandidate oracle dec bs blk i with
  | some b => dec.set (blk * bs + i) b
  | none => dec

/-- The nested recovery loops of `byte_at_a_time_ecb_decryption` (lines
56-88 of `src/sets/set2.rs`): `deciphered` starts as `oracle("")`-many zero
bytes and is filled block by block, byte by byte. -/
def byteAtATimeLoop (oracle : List Nat → List Nat) (bs : Nat) : List Nat :=
  (List.range ((oracle []).length / bs)).foldl (fun dec blk =>
    (List.range bs).foldl (fun dec i => stepPos oracle dec bs blk i) dec)
    (List.replicate (oracle []).length 0)

/-- Translation of `set2::byte_at_a_time_ecb_decryption`, parametric in the
oracle (the source fixes it to `aes::encrypt_seeded` with seed
`0xdeadbeef`, whose AES core is the external library primitive). The
block-size and ECB preconditions asserted on lines 49-53 concern that
concrete oracle; the modelled part is the recovery loop and the final
`String::from_utf8`, whose failure (the only error path of the function)
is modelled by `none`. -/
def byte_at_a_time_ecb_decryption (oracle : List Nat → List Nat) : Option (List Nat) :=
  let dec := byteAtATimeLoop oracle 16
  if validUtf8 dec then some dec else none

/-- An oracle under which no candidate byte can ever match: the output is
16 bytes, each equal to the query length, so the hint (built from a
shorter query) never equals any candidate ciphertext. -/
def lenOracle (x : List Nat) : List Nat := List.replicate 16 x.length

/-- Translation of Rust `str::split(c)` on a character separator: always
yields at least one (possibly empty) piece. -/
def splitOnChar (c : Char) : List Char → List (List Char)
  | [] => [[]]
  | x :: xs =>
    match splitOnChar c xs with
    | [] => [[]]
    | r :: rs => if x = c then [] :: r :: rs else (x :: r) :: rs

/-- The text before the first `=` of a segment. -/
def segKey (seg : List Char) : List Char :=
  seg.takeWhile (fun x => x != '=')

/-- The text between the first and second `=` of a segment (everything
after a second `=` is dropped). -/
def segVal (seg : List Char) : List Char :=
  ((seg.dropWhile (fun x => x != '=')).drop 1).takeWhile (fun x => x != '=')

/-- One iteration body of `utils::parse_kv_encoded`: split the segment on
`=`; the first `kv.next()` (the key) always succeeds since `split` yields
at least one piece, so the "Missing key" arm is dead; the second
`kv.next()` (the value) fails with "Missing value" when the segment holds
no `=`. -/
def parseSeg (seg : List Char) : Except String (List Char × List Char) :=
  match splitOnChar '=' seg with
  | [] => Except.error "Missing key"
  | [_] => Except.error "Missing value"
  | k :: v :: _ => Except.ok (k, v)

/-- Model of `HashMap::insert` on an association list: the new binding
replaces any previous binding of the same key. Only `lookupKV` is
observable, matching the hash map up to iteration order. -/
def insertKV (m : List (List Char × List Char)) (k v : List Char) :
    List (List Char × List Char) :=
  (k, v) :: m.filter (fun p => !(p.1 == k))

/-- Model of `HashMap` lookup on the association list. -/
def lookupKV (m : List (List Char × List Char)) (k : List Char) :
    Option (List Char) :=
  (m.find? (fun p => p.1 == k)).map (fun p => p.2)

/-- The `for pairs in s.split('&')` loop of `utils::parse_kv_encoded`,
threading the map and short-circuiting on the first bad segment. -/
def parseKVGo : List (List Char) → List (List Char × List Char) →
    Except String (List (List Char × List Char))
  | [], m => Except.ok m
  | seg :: rest, m =>
    match parseSeg seg with
    | Except.ok kv => parseKVGo rest (insertKV m kv.1 kv.2)
    | Except.error e => Except.error e

/-- Translation of `utils::parse_kv_encoded` in `src/utils.rs`. -/
def parse_kv_encoded (s : List Char) :
    Except String (List (List Char × List Char)) :=
  parseKVGo (splitOnChar '&' s) []

/- Theorems -/

theorem cycleTo_length (b : List Nat) (n : Nat) (hb : b ≠ []) :
    (cycleTo b n).length = n := by
  simp [cycleTo, hb]

theorem cycleTo_getElem (b : List Nat) (n i : Nat) (hb : b ≠ [])
    (h : i < (cycleTo b n).length) :
    (cycleTo b n)[i] = b.getD (i % b.length) 0 := by
  simp [cycleTo, hb]

theorem xorRaw_length (a b : List Nat) (hb : b ≠ []) :
    (xorRaw a b).length = a.length := by
  simp [xorRaw, cycleTo_length b a.length hb]

theorem xorRaw_eq_map (a b : List Nat) (hb : b ≠ []) :
    xorRaw a b = (List.range a.length).map
      (fun i => a.getD i 0 ^^^ b.getD (i % b.length) 0) := by
  have hc : (cycleTo b a.length).length = a.length := cycleTo_length b a.length hb
  apply List.ext_getElem
  · simp [xorRaw, hc]
  · intro i h1 h2
    have hi : i < a.length := by simpa using h2
    simp only [xorRaw, List.getElem_map, List.getElem_zip, List.getElem_range]
    rw [cycleTo_getElem b a.length i hb (by omega)]
    rw [List.getD_eq_getElem a 0 hi]

theorem xorRaw_getD (a b : List Nat) (hb : b ≠ []) (i : Nat) (hi : i < a.length) :
    (xorRaw a b).getD i 0 = a.getD i 0 ^^^ b.getD (i % b.length) 0 := by
  rw [xorRaw_eq_map a b hb]
  rw [List.getD_eq_getElem _ 0 (by simpa using hi)]
  simp

/-- C7. For all byte buffers `a` and `b` with `b` non-empty and
`len a ≥ len b`, `xor a b` returns the buffer of length `len a` whose byte
at each position `i` is `a[i] ^^^ b[i % len b]`; when `len a < len b` the
Rust assertion fires (modelled by `none`) instead of returning a value. -/
theorem xor_contract (a b : List Nat) (hb : b ≠ []) :
    (b.length ≤ a.length →
      xor a b = some ((List.range a.length).map
        (fun i => a.getD i 0 ^^^ b.getD (i % b.length) 0))) ∧
    (a.length < b.length → xor a b = none) := by
  constructor
  · intro h
    simp [xor, h, xorRaw_eq_map a b hb]
  · intro h
    simp [xor]
    omega

/-- Witness for C7 at concrete inputs. -/
theorem xor_contract_witness :
    xor [1, 2, 3] [5, 6] = some ((List.range 3).map
      (fun i => ([1, 2, 3].getD i 0) ^^^ ([5, 6].getD (i % 2) 0))) ∧
    xor [1] [5, 6] = none := by
  constructor
  · exact (xor_contract [1, 2, 3] [5, 6] (by decide)).1 (by decide)
  · exact (xor_contract [1] [5, 6] (by decide)).2 (by decide)

/-- C8 counterexample: with `k = []` and `p = [1]` we have
`len k ≤ len p`, yet un-XOR-ing does not give back `p`: the cycle of an
empty iterator yields nothing, so `xor p [] = some []`. -/
theorem xor_self_inverse_counterexample :
    ([] : List Nat).length ≤ [1].length ∧
    (xor [1] []).bind (fun c => xor c []) = some [] ∧
    some ([] : List Nat) ≠ some [1] := by
  refine ⟨by decide, ?_, by decide⟩
  decide

/-- C8 (amended: the key must also be non-empty). For all buffers `p` and
`k` with `k ≠ []` and `len k ≤ len p`, XOR-ing with `k` twice gives back
`p`. -/
theorem xor_self_inverse (p k : List Nat) (hk : k ≠ []) (h : k.length ≤ p.length) :
    (xor p k).bind (fun c => xor c k) = some p := by
  have hx : xor p k = some (xorRaw p k) := by simp [xor, h]
  have hlen : (xorRaw p k).length = p.length := xorRaw_length p k hk
  rw [hx]
  show xor (xorRaw p k) k = some p
  have h2 : k.length ≤ (xorRaw p k).length := by omega
  have hy : xor (xorRaw p k) k = some (xorRaw (xorRaw p k) k) := by simp [xor, h2]
  rw [hy]
  congr 1
  apply List.ext_getElem
  · rw [xorRaw_length _ k hk, hlen]
  · intro i h1 h2'
    have hip : i < p.length := by
      have := xorRaw_length (xorRaw p k) k hk
      omega
    have e1 : (xorRaw (xorRaw p k) k).getD i 0 = (xorRaw p k).getD i 0 ^^^ k.getD (i % k.length) 0 :=
      xorRaw_getD (xorRaw p k) k hk i (by omega)
    have e2 : (xorRaw p k).getD i 0 = p.getD i 0 ^^^ k.getD (i % k.length) 0 :=
      xorRaw_getD p k hk i hip
    have e3 : (xorRaw (xorRaw p k) k).getD i 0 = p.getD i 0 := by
      rw [e1, e2, Nat.xor_cancel_right]
    rw [List.getD_eq_getElem _ 0 (by omega)] at e3
    rw [List.getD_eq_getElem _ 0 hip] at e3
    rw [e3]

/-- Witness for C8 at concrete inputs. -/
theorem xor_self_inverse_witness :
    (xor [1, 2, 3] [7]).bind (fun c => xor c [7]) = some [1, 2, 3] :=
  xor_self_inverse [1, 2, 3] [7] (by decide) (by decide)

/-- C9. For every input buffer and block size `s` with `1 ≤ s ≤ 255`,
`pkcs7 input s` equals `input` followed by `n` copies of the byte value
`n` where `n = s - len input % s`; moreover `1 ≤ n ≤ s`, the output length
is the smallest multiple of `s` strictly greater than `len input`, and an
input whose length is a multiple of `s` gets a full extra block (`n = s`). -/
theorem pkcs7_spec (input : List Nat) (s : Nat) (h1 : 1 ≤ s) (h2 : s ≤ 255) :
    pkcs7 input s = input ++ List.replicate (s - input.length % s) (s - input.length % s) ∧
    1 ≤ s - input.length % s ∧ s - input.length % s ≤ s ∧
    (pkcs7 input s).length % s = 0 ∧
    input.length < (pkcs7 input s).length ∧
    (∀ m, m % s = 0 → input.length < m → (pkcs7 input s).length ≤ m) ∧
    (input.length % s = 0 → s - input.length % s = s) := by
  have hr : input.length % s < s := Nat.mod_lt _ (by omega)
  have hmod : (s - input.length % s) % 256 = s - input.length % s :=
    Nat.mod_eq_of_lt (by omega)
  have hdm : s * (input.length / s) + input.length % s = input.length :=
    Nat.div_add_mod input.length s
  have hlen : (pkcs7 input s).length = input.length + (s - input.length % s) := by
    simp [pkcs7]
  have hkey : input.length + (s - input.length % s) = s * (input.length / s + 1) := by
    have : s * (input.length / s + 1) = s * (input.length / s) + s := by ring
    omega
  refine ⟨?_, by omega, by omega, ?_, by omega, ?_, by omega⟩
  · simp [pkcs7, hmod]
  · rw [hlen, hkey]
    exact Nat.mul_mod_right _ _
  · intro m hm hLm
    obtain ⟨q, hq⟩ := Nat.dvd_of_mod_eq_zero hm
    rw [hlen, hkey, hq]
    have hql : input.length / s + 1 ≤ q := by
      by_contra hcon
      push_neg at hcon
      have : s * q ≤ s * (input.length / s) := Nat.mul_le_mul_left s (by omega)
      omega
    exact Nat.mul_le_mul_left s hql

/-- Witness for C9 at a concrete input and block size. -/
theorem pkcs7_spec_witness :
    pkcs7 [48, 48, 48, 48] 4 = [48, 48, 48, 48] ++ List.replicate 4 4 :=
  (pkcs7_spec [48, 48, 48, 48] 4 (by decide) (by decide)).1

theorem discoverLoop_const (out : List Nat) :
    ∀ fuel i, discoverLoop (fun _ => out) out.length fuel i = none := by
  intro fuel
  induction fuel with
  | zero => intro i; rfl
  | succ n ih =>
    intro i
    simp only [discoverLoop, ne_eq, not_true_eq_false, if_false]
    exact ih (i + 1)

theorem chunksAux_nil (n : Nat) : ∀ fuel, chunksAux n fuel [] = [] := by
  intro fuel
  cases fuel <;> rfl

theorem chunksAux_eq_of_le (n : Nat) (hn : 1 ≤ n) :
    ∀ f f' (l : List Nat), l.length ≤ f → l.length ≤ f' →
      chunksAux n f l = chunksAux n f' l := by
  intro f
  induction f with
  | zero =>
    intro f' l h h'
    have hl : l = [] := List.eq_nil_of_length_eq_zero (by omega)
    subst hl
    rw [chunksAux_nil, chunksAux_nil]
  | succ m ih =>
    intro f' l h h'
    cases f' with
    | zero =>
      have hl : l = [] := List.eq_nil_of_length_eq_zero (by omega)
      subst hl
      rw [chunksAux_nil, chunksAux_nil]
    | succ m' =>
      cases l with
      | nil => rw [chunksAux_nil, chunksAux_nil]
      | cons x xs =>
        simp only [List.length_cons] at h h'
        simp only [chunksAux]
        congr 1
        apply ih
        · simp only [List.length_drop, List.length_cons]
          omega
        · simp only [List.length_drop, List.length_cons]
          omega

theorem chunks_cons_eq (n : Nat) (hn : 1 ≤ n) (x : Nat) (xs : List Nat) :
    chunks n (x :: xs) = (x :: xs).take n :: chunks n ((x :: xs).drop n) := by
  unfold chunks
  simp only [List.length_cons, chunksAux]
  congr 1
  apply chunksAux_eq_of_le n hn
  · simp only [List.length_drop, List.length_cons]
    omega
  · exact le_rfl

theorem any_adjacent_iff (L : List (List Nat)) :
    ((L.zip (L.drop 1)).any fun p => p.1 == p.2) = true ↔
      ∃ i, i + 1 < L.length ∧ L.getD i [] = L.getD (i + 1) [] := by
  induction L with
  | nil => simp
  | cons a t ih =>
    cases t with
    | nil => simp
    | cons b t2 =>
      simp only [List.drop_succ_cons, List.drop_zero, List.zip_cons_cons,
        List.any_cons, Bool.or_eq_true, beq_iff_eq]
      constructor
      · rintro (hab | h)
        · exact ⟨0, by simp, by simpa using hab⟩
        · have h2 := ih.mp (by simpa using h)
          obtain ⟨i, hi, he⟩ := h2
          refine ⟨i + 1, by simpa using hi, by simpa using he⟩
      · rintro ⟨i, hi, he⟩
        cases i with
        | zero =>
          left
          simpa using he
        | succ j =>
          right
          have : ∃ i, i + 1 < (b :: t2).length ∧
              (b :: t2).getD i [] = (b :: t2).getD (i + 1) [] :=
            ⟨j, by simpa using hi, by simpa using he⟩
          simpa using ih.mpr this

/-- C1 counterexample: a 48-byte buffer whose blocks are A, B, A with
A ≠ B. Two of its 16-byte blocks are byte-identical (the spec predicate
holds), yet `is_ecb_encrypted` returns false, because the code only
compares ADJACENT chunk pairs (`chunks.zip(chunks.skip(1))`). -/
theorem is_ecb_encrypted_counterexample :
    anyTwoBlocksIdentical (chunks 16 ecbCounterBuf) = true ∧
    is_ecb_encrypted ecbCounterBuf = false := by
  decide

/-- C1 (amended: `is_ecb_encrypted` splits the buffer into 16-byte chunks
and returns true iff some two CONSECUTIVE chunks are byte-identical, not
iff any two chunks over all pairs are). -/
theorem is_ecb_encrypted_iff_adjacent (input : List Nat) :
    is_ecb_encrypted input = true ↔
      ∃ i, i + 1 < (chunks 16 input).length ∧
        (chunks 16 input).getD i [] = (chunks 16 input).getD (i + 1) [] :=
  any_adjacent_iff (chunks 16 input)

theorem join_map_chunks_length (enc : List Nat → List Nat)
    (henc : ∀ b : List Nat, b.length = 16 → (enc b).length = 16) :
    ∀ (n : Nat) (l : List Nat), l.length ≤ n → 16 ∣ l.length →
      (((chunks 16 l).map enc).flatten).length = l.length := by
  intro n
  induction n with
  | zero =>
    intro l h hdvd
    have hl : l = [] := List.eq_nil_of_length_eq_zero (by omega)
    subst hl
    rfl
  | succ m ih =>
    intro l h hdvd
    cases l with
    | nil => rfl
    | cons x xs =>
      rw [chunks_cons_eq 16 (by omega) x xs]
      have hge : 16 ≤ (x :: xs).length := by
        rcases hdvd with ⟨q, hq⟩
        have : q ≠ 0 := by
          intro h0
          rw [h0] at hq
          simp at hq
        have : 1 ≤ q := by omega
        simp only [List.length_cons] at hq ⊢
        omega
      have htake : ((x :: xs).take 16).length = 16 := by
        simp only [List.length_take]
        omega
      have hdrop : ((x :: xs).drop 16).length = (x :: xs).length - 16 := by
        simp [List.length_drop]
      simp only [List.map_cons, List.flatten_cons]
      rw [List.length_append]
      rw [henc _ htake]
      rw [ih ((x :: xs).drop 16) (by simp only [List.length_drop, List.length_cons] at *; omega)
        (by rw [hdrop]; exact Nat.dvd_sub' hdvd (dvd_refl 16))]
      simp only [List.length_drop]
      omega

theorem pkcs7_16_length (x : List Nat) :
    (pkcs7 x 16).length = (x.length / 16 + 1) * 16 := by
  have hlen : (pkcs7 x 16).length = x.length + (16 - x.length % 16) := by
    simp [pkcs7]
  omega

set_option maxRecDepth 10000 in
/-- C5 counterexample: for a 6-byte input, `6 + 138 = 144` is already a
multiple of 16, yet PKCS#7 always appends at least one padding byte, so
the ciphertext has 160 bytes while the claimed formula
`ceil((len input + len suffix) / 16) * 16` gives only 144. -/
theorem encrypt_seeded_length_counterexample :
    (encrypt_seeded id (List.replicate 6 0)).length = 160 ∧
    (((List.replicate 6 0 : List Nat).length + seededSuffix.length + 15) / 16) * 16 = 144 := by
  constructor
  · decide
  · decide

/-- C5 (amended: the output length of the padding-ECB oracle is
`(floor((len input + len suffix) / 16) + 1) * 16`, one full block more
when the total is already a multiple of the block size, because PKCS#7
always appends between 1 and 16 bytes). -/
theorem encrypt_seeded_length (enc : List Nat → List Nat)
    (henc : ∀ b : List Nat, b.length = 16 → (enc b).length = 16) (input : List Nat) :
    (encrypt_seeded enc input).length =
      ((input.length + seededSuffix.length) / 16 + 1) * 16 := by
  unfold encrypt_seeded ecb_encrypt
  have h1 : (pkcs7 (input ++ seededSuffix) 16).length =
      ((input ++ seededSuffix).length / 16 + 1) * 16 := pkcs7_16_length _
  have hdvd : 16 ∣ (pkcs7 (input ++ seededSuffix) 16).length := by
    rw [h1]
    exact dvd_mul_left 16 _
  have h2 := join_map_chunks_length enc henc (pkcs7 (input ++ seededSuffix) 16).length
    (pkcs7 (input ++ seededSuffix) 16) le_rfl hdvd
  rw [h2, h1]
  simp [List.length_append]

/-- Witness for C5 with the identity block permutation at the empty
input. -/
theorem encrypt_seeded_length_witness :
    (encrypt_seeded id ([] : List Nat)).length =
      ((([] : List Nat).length + seededSuffix.length) / 16 + 1) * 16 :=
  encrypt_seeded_length id (fun _ hb => hb) []

/-- C4 (code bug). On an oracle whose output length never changes (for
example, a constant oracle), the Rust loop `for i in 2..` in
`discover_block_size` never returns, for any number of iterations: the
function loops forever instead of failing with its own (unreachable)
"Block size never changed!" error, contradicting both the spec and the
intent evidenced by that dead panic line. -/
theorem discover_block_size_diverges :
    ∀ (out : List Nat) (fuel : Nat), discover_block_size (fun _ => out) fuel = none := by
  intro out fuel
  unfold discover_block_size
  exact discoverLoop_const out fuel 2

theorem xor_cipher_fold_const (score : List Nat → Rat) (input : List Nat) :
    ∀ (keys : List Nat) (best : Nat × List Nat × Rat),
      (∀ k ∈ keys, validUtf8 (xorRaw input [k]) = false) →
      keys.foldl (fun best key =>
        let decoded := xorRaw input [key]
        if validUtf8 decoded then
          let sc := score decoded
          if best.2.2 < sc then (key, decoded, sc) else best
        else best) best = best := by
  intro keys
  induction keys with
  | nil => intro best h; rfl
  | cons k ks ih =>
    intro best h
    have hk : validUtf8 (xorRaw input [k]) = false := h k (by simp)
    simp only [List.foldl_cons, hk]
    simp only [Bool.false_eq_true, if_false]
    exact ih best (fun k hkk => h k (by simp [hkk]))

/-- C3 counterexample: for the input `[0, 128]` no key byte in `0..=255`
XOR-decodes to valid UTF-8 (one of the two decoded bytes is always an
isolated byte `≥ 0x80`), and `xor_cipher` returns the silent default
`Ok((0, "", 0.0))` rather than any error. -/
theorem xor_cipher_counterexample :
    ((List.range 256).all (fun k => !(validUtf8 (xorRaw [0, 128] [k])))) = true ∧
    xor_cipher (fun _ => 0) [0, 128] = some (0, [], 0) := by
  constructor
  · decide
  · decide

/-- C3 (amended: on an input buffer where no candidate key byte yields
valid UTF-8, `xor_cipher` silently returns `Ok` with key byte 0, empty
plaintext and score 0 — the untouched initial accumulator — instead of a
"no valid candidate" error; no error path exists in the function). -/
theorem xor_cipher_silent_default (score : List Nat → Rat) (input : List Nat)
    (h1 : input ≠ [])
    (h2 : ∀ k ∈ List.range 256, validUtf8 (xorRaw input [k]) = false) :
    xor_cipher score input = some (0, [], 0) := by
  have hlen : 1 ≤ input.length := by
    cases input with
    | nil => exact absurd rfl h1
    | cons x xs => simp
  unfold xor_cipher
  rw [if_pos hlen]
  congr 1
  exact xor_cipher_fold_const score input (List.range 256) (0, [], 0) h2

/-- Witness for C3 at the concrete input `[0, 128]`. -/
theorem xor_cipher_silent_default_witness :
    xor_cipher (fun _ => 0) [0, 128] = some (0, [], 0) :=
  xor_cipher_silent_default (fun _ => 0) [0, 128] (by decide) (by decide)

theorem foldl_length_invariant {α : Type} (f : List Nat → α → List Nat)
    (h : ∀ d a, (f d a).length = d.length) :
    ∀ (l : List α) (d : List Nat), (l.foldl f d).length = d.length := by
  intro l
  induction l with
  | nil => intro d; rfl
  | cons a t ih =>
    intro d
    rw [List.foldl_cons, ih (f d a), h d a]

theorem stepPos_length (oracle : List Nat → List Nat) (dec : List Nat)
    (bs blk i : Nat) : (stepPos oracle dec bs blk i).length = dec.length := by
  unfold stepPos
  cases findCandidate oracle dec bs blk i with
  | none => rfl
  | some b => simp

/-- C2 counterexample: under `lenOracle`, at block 0 and position 0 none of
the 256 candidate bytes produces a ciphertext block equal to the hint
block, yet the attack completes and returns `Ok` (with the position left at
the default byte 0) instead of reporting a fatal oracle-inconsistency
error. -/
theorem byte_at_a_time_counterexample :
    findCandidate lenOracle (List.replicate 16 0) 16 0 0 = none ∧
    byte_at_a_time_ecb_decryption lenOracle = some (List.replicate 16 0) := by
  constructor
  · decide
  · decide

/-- C2 (amended: a target byte position where no candidate byte matches the
hint block is silently skipped — the `deciphered` buffer is left unchanged
there, keeping the default byte 0, and the attack continues and returns a
full-length result; no oracle-inconsistency error is reported). -/
theorem byte_at_a_time_silent_skip (oracle : List Nat → List Nat) (dec : List Nat)
    (bs blk i : Nat) :
    (findCandidate oracle dec bs blk i = none → stepPos oracle dec bs blk i = dec) ∧
    (byteAtATimeLoop oracle bs).length = (oracle []).length := by
  constructor
  · intro h
    unfold stepPos
    rw [h]
  · unfold byteAtATimeLoop
    rw [foldl_length_invariant _ (fun d blk =>
      foldl_length_invariant (fun dec i => stepPos oracle dec bs blk i)
        (fun d2 i => stepPos_length oracle d2 bs blk i) (List.range bs) d)]
    simp

/-- Witness for C2 under the concrete `lenOracle`. -/
theorem byte_at_a_time_silent_skip_witness :
    stepPos lenOracle (List.replicate 16 0) 16 0 0 = List.replicate 16 0 :=
  (byte_at_a_time_silent_skip lenOracle (List.replicate 16 0) 16 0 0).1 (by decide)

theorem splitOnChar_structure (c : Char) (l : List Char) :
    splitOnChar c l = l.takeWhile (fun x => x != c) ::
      (if c ∈ l then splitOnChar c ((l.dropWhile (fun x => x != c)).drop 1) else []) := by
  induction l with
  | nil => simp [splitOnChar]
  | cons x xs ih =>
    simp only [splitOnChar]
    rw [ih]
    by_cases hx : x = c
    · subst hx
      simp [List.takeWhile_cons, List.dropWhile_cons]
      rw [List.drop_one] at ih
      exact ih.symm
    · have hcx : ¬ c = x := fun hh => hx hh.symm
      simp [List.takeWhile_cons, List.dropWhile_cons, hx, hcx, List.mem_cons]

theorem parseSeg_spec (seg : List Char) :
    ('=' ∈ seg → parseSeg seg = Except.ok (segKey seg, segVal seg)) ∧
    ('=' ∉ seg → parseSeg seg = Except.error "Missing value") := by
  constructor
  · intro h
    unfold parseSeg
    rw [splitOnChar_structure]
    rw [if_pos h]
    rw [splitOnChar_structure]
    rfl
  · intro h
    unfold parseSeg
    rw [splitOnChar_structure, if_neg h]

theorem find?_filter_ne (k k' : List Char) (hne : k' ≠ k) :
    ∀ m : List (List Char × List Char),
      (m.filter (fun p => !(p.1 == k))).find? (fun p => p.1 == k') =
        m.find? (fun p => p.1 == k') := by
  intro m
  induction m with
  | nil => rfl
  | cons a t ih =>
    by_cases ha : a.1 = k
    · have h1 : (a.1 == k) = true := beq_iff_eq.mpr ha
      have h2 : (a.1 == k') = false := by
        rw [beq_eq_false_iff_ne]
        rw [ha]
        exact fun hh => hne hh.symm
      simp [List.filter_cons, h1, List.find?_cons, h2, ih]
    · have h1 : (a.1 == k) = false := beq_eq_false_iff_ne.mpr ha
      by_cases hk : a.1 = k'
      · have h2 : (a.1 == k') = true := beq_iff_eq.mpr hk
        simp [List.filter_cons, h1, List.find?_cons, h2]
      · have h2 : (a.1 == k') = false := beq_eq_false_iff_ne.mpr hk
        simp [List.filter_cons, h1, List.find?_cons, h2, ih]

theorem lookupKV_insertKV (m : List (List Char × List Char)) (k v k' : List Char) :
    lookupKV (insertKV m k v) k' = if k' = k then some v else lookupKV m k' := by
  unfold lookupKV insertKV
  by_cases h : k' = k
  · subst h
    simp [List.find?_cons]
  · have hb : ((k, v).1 == k') = false := by
      rw [beq_eq_false_iff_ne]
      exact fun hh => h hh.symm
    rw [List.find?_cons_of_neg _ (by simp [hb]), if_neg h]
    rw [find?_filter_ne k k' h m]

theorem parseKVGo_ok_iff (segs : List (List Char)) :
    ∀ m : List (List Char × List Char),
      ((∃ m', parseKVGo segs m = Except.ok m') ↔ ∀ seg ∈ segs, '=' ∈ seg) ∧
      ((∃ seg ∈ segs, '=' ∉ seg) →
        parseKVGo segs m = Except.error "Missing value") := by
  induction segs with
  | nil =>
    intro m
    constructor
    · simp [parseKVGo]
    · simp
  | cons seg rest ih =>
    intro m
    by_cases hs : '=' ∈ seg
    · have hps := (parseSeg_spec seg).1 hs
      constructor
      · simp only [parseKVGo, hps]
        rw [(ih _).1]
        simp [hs]
      · intro ⟨bad, hbad, hbe⟩
        simp only [parseKVGo, hps]
        apply (ih _).2
        refine ⟨bad, ?_, hbe⟩
        cases hbad with
        | head => exact absurd hs hbe
        | tail _ hmem => exact hmem
    · have hps := (parseSeg_spec seg).2 hs
      constructor
      · simp [parseKVGo, hps, hs]
      · intro _
        simp [parseKVGo, hps]

theorem parseKVGo_lookup (segs : List (List Char)) :
    ∀ m m' : List (List Char × List Char),
      parseKVGo segs m = Except.ok m' →
      ∀ k, lookupKV m' k =
        ((segs.reverse.find? (fun seg => segKey seg == k)).map segVal).or
          (lookupKV m k) := by
  induction segs with
  | nil =>
    intro m m' h k
    simp only [parseKVGo] at h
    cases h
    simp
  | cons seg rest ih =>
    intro m m' h k
    have hs : '=' ∈ seg := by
      by_contra hc
      rw [parseKVGo, (parseSeg_spec seg).2 hc] at h
      cases h
    rw [parseKVGo, (parseSeg_spec seg).1 hs] at h
    have hrec := ih _ _ h k
    rw [hrec, lookupKV_insertKV]
    rw [List.reverse_cons, List.find?_append]
    by_cases hfind : rest.reverse.find? (fun seg => segKey seg == k) = none
    · rw [hfind]
      simp only [Option.none_or, Option.map_none]
      by_cases hk : k = segKey seg
      · have : (segKey seg == k) = true := beq_iff_eq.mpr hk.symm
        simp [List.find?_cons, this, hk]
      · have : (segKey seg == k) = false := by
          rw [beq_eq_false_iff_ne]
          exact fun hh => hk hh.symm
        simp [List.find?_cons, this, hk]
    · obtain ⟨found, hfound⟩ := Option.ne_none_iff_exists'.mp hfind
      rw [hfound]
      simp

/-- C10. `parse_kv_encoded` succeeds exactly when every `&`-separated
segment of the input contains at least one `=`, and otherwise returns the
"Missing value" error; on success the returned map sends, for each
segment, the text before its first `=` to the text between its first and
second `=` (text after a second `=` is dropped), and when several segments
share a key the last segment wins. -/
theorem parse_kv_encoded_spec (s : List Char) :
    ((∃ m, parse_kv_encoded s = Except.ok m) ↔
      ∀ seg ∈ splitOnChar '&' s, '=' ∈ seg) ∧
    ((∃ seg ∈ splitOnChar '&' s, '=' ∉ seg) →
      parse_kv_encoded s = Except.error "Missing value") ∧
    (∀ m, parse_kv_encoded s = Except.ok m → ∀ k,
      lookupKV m k =
        ((splitOnChar '&' s).reverse.find? (fun seg => segKey seg == k)).map segVal) := by
  refine ⟨(parseKVGo_ok_iff _ []).1, (parseKVGo_ok_iff _ []).2, ?_⟩
  intro m hm k
  have h := parseKVGo_lookup (splitOnChar '&' s) [] m hm k
  simpa [lookupKV] using h

/-- Witness for C10: parsing `"a=1&b=2=x&a=3"` and looking up key `"a"`
returns the value of the LAST `a` segment, with the text after the second
`=` of the `b` segment dropped. -/
theorem parse_kv_encoded_spec_witness :
    lookupKV [("a".toList, "3".toList), ("b".toList, "2".toList)] "a".toList =
      some "3".toList :=
  ((parse_kv_encoded_spec "a=1&b=2=x&a=3".toList).2.2
    [("a".toList, "3".toList), ("b".toList, "2".toList)] (by rfl) "a".toList).trans
    (by decide)

end Cryptopals
